import Mathlib

/-!
Verification of the Human3.6M sequence indexer
(`mmpose/datasets/datasets/body3d/h36m_dataset.py`) and of the
`MonoPoseLifting` codec contract exercised by
`tests/test_codecs/test_mono_pose_lifting.py`.

Strings are embedded as `List Char`, numpy float configuration values as `ℚ`,
frame indices as `Nat`.  Python list slicing `l[a:b:s]` (with non-negative
bounds and positive step) is embedded by `pySlice`.
-/

namespace H36M

/-- Auxiliary for `everyNth`: keep an element when the skip counter is `0`
(then reset it to `s - 1`), otherwise decrement the counter. -/
def everyNthAux (s : Nat) : Nat → List α → List α
  | _, [] => []
  | 0, x :: xs => x :: everyNthAux s (s - 1) xs
  | k + 1, _ :: xs => everyNthAux s k xs

/-- Take every `s`-th element of a list, starting with the head
(Python `l[::s]` for `s ≥ 1`). -/
def everyNth (s : Nat) (l : List α) : List α :=
  everyNthAux s 0 l

/-- Python slice `l[a:b:s]` for `0 ≤ a`, `0 ≤ b`, `1 ≤ s`. -/
def pySlice (l : List α) (a b s : Nat) : List α :=
  everyNth s ((l.take b).drop a)

theorem everyNthAux_length (s : Nat) (hs : 0 < s) (l : List α) :
    ∀ k, (everyNthAux s k l).length = (l.length - k + s - 1) / s := by
  induction l with
  | nil =>
    intro k
    simp only [everyNthAux, List.length_nil]
    exact (Nat.div_eq_of_lt (by omega)).symm
  | cons x xs ih =>
    intro k
    cases k with
    | zero =>
      rw [everyNthAux]
      simp only [List.length_cons, ih (s - 1)]
      rcases le_or_lt (s - 1) xs.length with h | h
      · have h1 : xs.length - (s - 1) + s - 1 = xs.length := by omega
        have h2 : xs.length + 1 - 0 + s - 1 = xs.length + 1 * s := by omega
        rw [h1, h2, Nat.add_mul_div_right _ _ hs]
      · have h2 : xs.length - (s - 1) = 0 := by omega
        have h3 : (0 + s - 1) / s = 0 := Nat.div_eq_of_lt (by omega)
        have h5 : xs.length + 1 - 0 + s - 1 = xs.length + s := by omega
        have h6 : xs.length / s = 0 := Nat.div_eq_of_lt (by omega)
        rw [h2, h3, h5, Nat.add_div_right _ hs]
        omega
    | succ k =>
      rw [everyNthAux]
      simp only [List.length_cons, ih k]
      have h : xs.length - k + s - 1 = xs.length + 1 - (k + 1) + s - 1 := by omega
      rw [h]

theorem everyNth_length (s : Nat) (hs : 0 < s) (l : List α) :
    (everyNth s l).length = (l.length + s - 1) / s := by
  rw [everyNth, everyNthAux_length s hs l 0, Nat.sub_zero]

theorem pySlice_length (l : List α) (a b s : Nat) (hs : 0 < s) :
    (pySlice l a b s).length = (min b l.length - a + s - 1) / s := by
  rw [pySlice, everyNth_length s hs, List.length_drop, List.length_take]

theorem everyNthAux_sublist (s : Nat) (l : List α) :
    ∀ k, (everyNthAux s k l).Sublist l := by
  induction l with
  | nil => intro k; simp [everyNthAux]
  | cons x xs ih =>
    intro k
    cases k with
    | zero => exact (ih (s - 1)).cons₂ x
    | succ k => exact (ih k).cons x

theorem everyNth_sublist (s : Nat) (l : List α) : (everyNth s l).Sublist l :=
  everyNthAux_sublist s l 0

theorem pySlice_sublist (l : List α) (a b s : Nat) : (pySlice l a b s).Sublist l :=
  ((everyNth_sublist s _).trans ((l.take b).drop_sublist a)).trans (l.take_sublist b)

/-! ### Image-name parsing (`Human36mDataset._parse_h36m_imgname`) -/

/-- `osp.basename`: the part of the path after the last `'/'`. -/
def basename (s : List Char) : List Char :=
  ((s.reverse.takeWhile (fun c => c ≠ '/')).reverse)

/-- Python `s.split(d, 1)` followed by 2-tuple unpacking: `some (before, after)`
splitting at the first occurrence of `c`, `none` (an unpacking `ValueError`)
when `c` does not occur. -/
def splitOnce (c : Char) : List Char → Option (List Char × List Char)
  | [] => none
  | x :: xs =>
    if x = c then some ([], xs)
    else (splitOnce c xs).map (fun p => (x :: p.1, p.2))

/-- The suffix of `l` after the first occurrence of `c` (`[]` if absent). -/
def afterFirst (c : Char) : List Char → List Char
  | [] => []
  | x :: xs => if x = c then xs else afterFirst c xs

/-- `Human36mDataset._parse_h36m_imgname`: successive splits of the basename at
`'_'`, `'.'`, `'_'` giving (subject, action, camera); `none` models the
`ValueError` raised by tuple unpacking when a delimiter is missing. -/
def parseImgname (s : List Char) : Option (List Char × List Char × List Char) := do
  let p1 ← splitOnce '_' (basename s)
  let p2 ← splitOnce '.' p1.2
  let p3 ← splitOnce '_' p2.2
  pure (p1.1, p2.1, p3.1)

theorem splitOnce_isSome_iff (c : Char) (l : List Char) :
    (splitOnce c l).isSome ↔ c ∈ l := by
  induction l with
  | nil => simp [splitOnce]
  | cons x xs ih =>
    by_cases h : x = c <;> simp [splitOnce, h, ih]
    exact fun h' => absurd h'.symm h

theorem splitOnce_snd (c : Char) (l : List Char) (p : List Char × List Char)
    (h : splitOnce c l = some p) : p.2 = afterFirst c l := by
  induction l generalizing p with
  | nil => simp [splitOnce] at h
  | cons x xs ih =>
    by_cases hx : x = c
    · simp [splitOnce, hx, afterFirst] at h ⊢
      rw [← h]
    · simp only [splitOnce, hx, if_false, afterFirst, Option.map_eq_some'] at h ⊢
      obtain ⟨q, hq, hpq⟩ := h
      rw [← hpq]
      exact ih q hq

/-! ### Grouping frames per video and ordering the video keys -/

/-- A video key `(subject, action, camera)`. -/
abbrev VideoKey := List Char × List Char × List Char

/-- Python string `<` comparison (lexicographic on code points). -/
def strLt : List Char → List Char → Bool
  | [], [] => false
  | [], _ :: _ => true
  | _ :: _, [] => false
  | a :: as, b :: bs =>
    if a.val < b.val then true
    else if b.val < a.val then false
    else strLt as bs

/-- Python tuple `<` comparison on video keys. -/
def keyLt (k₁ k₂ : VideoKey) : Bool :=
  if strLt k₁.1 k₂.1 then true
  else if strLt k₂.1 k₁.1 then false
  else if strLt k₁.2.1 k₂.2.1 then true
  else if strLt k₂.2.1 k₁.2.1 then false
  else strLt k₁.2.2 k₂.2.2

def insertKey (k : VideoKey) : List VideoKey → List VideoKey
  | [] => [k]
  | y :: ys => if keyLt k y then k :: y :: ys else y :: insertKey k ys

/-- `sorted(video_frames.items())`: the distinct keys in Python sorted order. -/
def sortKeys : List VideoKey → List VideoKey
  | [] => []
  | k :: ks => insertKey k (sortKeys ks)

/-- The `idx` values appended to `video_frames[(subj, action, camera)]`:
all annotation-row positions whose image name parses to `k`, in table order. -/
def videoFrames (names : List (List Char)) (k : VideoKey) : List Nat :=
  (List.range names.length).filter fun i => parseImgname (names.getD i []) = some k

/-! ### `Human36mDataset.get_sequence_indices` -/

/-- Configuration of `Human36mDataset` relevant to `get_sequence_indices`.
`subset_frac` (a Python float) is embedded as the exact rational
`subset_num / subset_den`. -/
structure SeqCfg where
  seq_len : Nat := 1
  seq_step : Nat := 1
  multiple_target : Nat := 0
  pad_video_seq : Bool := false
  causal : Bool := true
  subset_num : Nat := 1
  subset_den : Nat := 1

/-- The `pad_video_seq` branch of `get_sequence_indices` for one video:
for every frame `i` emit `[_indices[0]] * pad_left + _indices[start:end:_step]
+ [_indices[-1]] * pad_right`. -/
def padSeqsOfVideo (seq_len step : Nat) (causal : Bool) (idxs : List Nat) :
    List (List Nat) :=
  let n := idxs.length
  let fl := if causal then seq_len - 1 else (seq_len - 1) / 2
  let fr := if causal then 0 else (seq_len - 1) / 2
  (List.range n).map fun i =>
    List.replicate (fl - i / step) (idxs.headD 0) ++
      pySlice idxs (max (i % step) (i - fl * step))
        (min (n - (n - 1 - i) % step) (i + fr * step + 1)) step ++
      List.replicate (fr - (n - 1 - i) / step) (idxs.getLastD 0)

/-- The sequences contributed by one video's frame-index list `idxs`
(the body of the loop over `sorted(video_frames.items())`). -/
def seqsOfVideo (cfg : SeqCfg) (idxs : List Nat) : List (List Nat) :=
  let n := idxs.length
  let m := cfg.multiple_target
  if m ≠ 0 then
    ((List.range ((n + m - 1) / m)).map fun j =>
      pySlice idxs (j * m) (j * m + m) cfg.seq_step).take (n / m)
  else if cfg.pad_video_seq then
    padSeqsOfVideo cfg.seq_len cfg.seq_step cfg.causal idxs
  else
    (List.range ((n + 1) - ((cfg.seq_len - 1) * cfg.seq_step + 1))).map fun i =>
      pySlice idxs i (i + ((cfg.seq_len - 1) * cfg.seq_step + 1)) cfg.seq_step

/-- The full `sequence_indices` list before the subset-reduction step.
`none` models the `ValueError` raised when some image name fails to parse. -/
def allSequences (cfg : SeqCfg) (names : List (List Char)) :
    Option (List (List Nat)) :=
  if names.all fun nm => (parseImgname nm).isSome then
    some ((sortKeys (names.filterMap parseImgname).dedup).map
      (fun k => seqsOfVideo cfg (videoFrames names k))).flatten
  else none

/-- `int(len(sequence_indices) * self.subset_frac)` for
`subset_frac = p / q ≥ 0`: `int` truncates toward zero, which on the exact
rational `total * p / q` is Nat division. -/
def subsetSize (p q total : Nat) : Nat :=
  total * p / q

/-- `Human36mDataset.get_sequence_indices`.  The value `r` drawn by
`np.random.randint(0, len(sequence_indices) - subset_size + 1)` is passed
explicitly; callers constrain it to the valid range. -/
def get_sequence_indices (cfg : SeqCfg) (names : List (List Char)) (r : Nat) :
    Option (List (List Nat)) :=
  (allSequences cfg names).map fun full =>
    (full.drop r).take (subsetSize cfg.subset_num cfg.subset_den full.length)

/-! ### `Human36mDataset.__init__` (the `keypoint_2d_src` check) -/

def SUPPORTED_keypoint_2d_src : List (List Char) :=
  [['g', 't'],
   ['d', 'e', 't', 'e', 'c', 't', 'i', 'o', 'n'],
   ['p', 'i', 'p', 'e', 'l', 'i', 'n', 'e']]

/-- The fields of a constructed `Human36mDataset` used by this development;
samples can only be produced from a successfully constructed value. -/
structure Human36mDataset where
  keypoint_2d_src : List Char
  seqCfg : SeqCfg

/-- `Human36mDataset.__init__`: the `keypoint_2d_src` membership check is the
first statement of the constructor, so the `ValueError` is raised eagerly,
before any sample can be produced from the dataset object. -/
def h36mInit (keypoint_2d_src : List Char) (cfg : SeqCfg) :
    Except (List Char) Human36mDataset :=
  if keypoint_2d_src ∈ SUPPORTED_keypoint_2d_src then
    Except.ok { keypoint_2d_src := keypoint_2d_src, seqCfg := cfg }
  else
    Except.error
      ['U', 'n', 's', 'u', 'p', 'p', 'o', 'r', 't', 'e', 'd', ' ',
       'k', 'e', 'y', 'p', 'o', 'i', 'n', 't', '_', '2', 'd', '_', 's', 'r', 'c']

/-! ### C8: eager validation of `keypoint_2d_src` -/

/-- C8: the dataset constructor raises the configuration `ValueError` if and
only if `keypoint_2d_src` is not one of `gt` / `detection` / `pipeline`.  The
check is the first statement of `__init__` (the constructor result is an
`Except`, and samples can only be produced from a successfully constructed
`Human36mDataset`), so the error is raised eagerly at construction time. -/
theorem claim_C8 (src : List Char) (cfg : SeqCfg) :
    (∃ e, h36mInit src cfg = Except.error e) ↔
      src ∉ SUPPORTED_keypoint_2d_src := by
  unfold h36mInit
  by_cases h : src ∈ SUPPORTED_keypoint_2d_src <;> simp [h]

/-! ### C10: partiality of `_parse_h36m_imgname` -/

/-- C10: `_parse_h36m_imgname` returns a (subject, action, camera) triple
exactly when the basename contains an underscore, followed (in the remainder)
by a dot, followed (in the remainder after the dot) by another underscore;
otherwise the tuple unpacking raises (`none`). -/
theorem claim_C10 (s : List Char) :
    (parseImgname s).isSome ↔
      '_' ∈ basename s ∧ '.' ∈ afterFirst '_' (basename s) ∧
        '_' ∈ afterFirst '.' (afterFirst '_' (basename s)) := by
  unfold parseImgname
  rcases h1 : splitOnce '_' (basename s) with _ | p1
  · have m1 := splitOnce_isSome_iff '_' (basename s)
    rw [h1] at m1
    simp only [Option.isSome_none, Bool.false_eq_true, false_iff] at m1
    simp [m1]
  · have m1 := splitOnce_isSome_iff '_' (basename s)
    rw [h1] at m1
    simp only [Option.isSome_some, true_iff] at m1
    have e1 : p1.2 = afterFirst '_' (basename s) := splitOnce_snd _ _ _ h1
    rcases h2 : splitOnce '.' p1.2 with _ | p2
    · have m2 := splitOnce_isSome_iff '.' p1.2
      rw [h2] at m2
      simp only [Option.isSome_none, Bool.false_eq_true, false_iff] at m2
      rw [e1] at m2
      simp [h1, h2, m1, m2]
    · have m2 := splitOnce_isSome_iff '.' p1.2
      rw [h2] at m2
      simp only [Option.isSome_some, true_iff] at m2
      have e2 : p2.2 = afterFirst '.' (afterFirst '_' (basename s)) := by
        rw [← e1]; exact splitOnce_snd _ _ _ h2
      rcases h3 : splitOnce '_' p2.2 with _ | p3
      · have m3 := splitOnce_isSome_iff '_' p2.2
        rw [h3] at m3
        simp only [Option.isSome_none, Bool.false_eq_true, false_iff] at m3
        rw [e2] at m3
        simp [h1, h2, h3, m1, e1 ▸ m2, m3]
      · have m3 := splitOnce_isSome_iff '_' p2.2
        rw [h3] at m3
        simp only [Option.isSome_some, true_iff] at m3
        rw [e2] at m3
        simp [h1, h2, h3, m1, e1 ▸ m2, m3]

/-! ### C3: the unpadded sliding-window branch -/

theorem everyNthAux_one (l : List α) : everyNthAux 1 0 l = l := by
  induction l with
  | nil => rfl
  | cons x xs ih => rw [everyNthAux]; simpa using ih

theorem everyNth_one (l : List α) : everyNth 1 l = l :=
  everyNthAux_one l

theorem pySlice_singleton (l : List Nat) (a : Nat) (h : a < l.length) :
    pySlice l a (a + 1) 1 = [l[a]] := by
  rw [pySlice, everyNth_one, List.drop_take,
    show a + 1 - a = 1 by omega,
    List.drop_eq_getElem_cons h, List.take_succ_cons, List.take_zero]

/-- C3: with `multiple_target = 0` and `pad_video_seq = False`, a video of
`n` frames contributes `max 0 (n - ((seq_len-1)*seq_step+1) + 1)` sequences
(Nat subtraction `n + 1 - len` below); with `seq_len = seq_step = 1` the
sequences are exactly the singletons of the per-video frame indices. -/
theorem claim_C3 (cfg : SeqCfg) (idxs : List Nat)
    (hmt : cfg.multiple_target = 0) (hpad : cfg.pad_video_seq = false) :
    (seqsOfVideo cfg idxs).length
        = idxs.length + 1 - ((cfg.seq_len - 1) * cfg.seq_step + 1) ∧
      (cfg.seq_len = 1 → cfg.seq_step = 1 →
        seqsOfVideo cfg idxs = idxs.map fun x => [x]) := by
  constructor
  · simp [seqsOfVideo, hmt, hpad]
  · intro h1 h2
    have hbranch : seqsOfVideo cfg idxs =
        (List.range idxs.length).map fun i => pySlice idxs i (i + 1) 1 := by
      simp [seqsOfVideo, hmt, hpad, h1, h2]
    rw [hbranch]
    apply List.ext_getElem
    · simp
    · intro i hL hR
      rw [List.getElem_map, List.getElem_range, List.getElem_map]
      exact pySlice_singleton idxs i (by simpa using hR)

/-! ### C4: the `multiple_target` branch -/

theorem mul_add_le_of_lt_div {j n m : Nat} (h : j < n / m) :
    j * m + m ≤ n := by
  have h2 : (j + 1) * m ≤ n / m * m := Nat.mul_le_mul_right m h
  have h3 : n / m * m ≤ n := Nat.div_mul_le_self n m
  calc j * m + m = (j + 1) * m := by ring
    _ ≤ n / m * m := h2
    _ ≤ n := h3

/-- C4: with `multiple_target = m > 0`, a video of `n` frames contributes
exactly `n / m` sequences; the `j`-th is the run of `m` consecutive per-video
indices starting at `j*m`, subsampled every `seq_step` (hence
`⌈m / seq_step⌉` elements each); the trailing partial group is dropped by the
`[:n_frame // multiple_target]` truncation. -/
theorem claim_C4 (cfg : SeqCfg) (idxs : List Nat)
    (hm : 0 < cfg.multiple_target) (hs : 0 < cfg.seq_step) :
    (seqsOfVideo cfg idxs).length = idxs.length / cfg.multiple_target ∧
    ∀ j < idxs.length / cfg.multiple_target,
      (seqsOfVideo cfg idxs)[j]? =
        some (everyNth cfg.seq_step
          ((idxs.drop (j * cfg.multiple_target)).take cfg.multiple_target)) ∧
      (everyNth cfg.seq_step
          ((idxs.drop (j * cfg.multiple_target)).take cfg.multiple_target)).length
        = (cfg.multiple_target + cfg.seq_step - 1) / cfg.seq_step := by
  have hm' : cfg.multiple_target ≠ 0 := by omega
  have hbranch : seqsOfVideo cfg idxs =
      ((List.range ((idxs.length + cfg.multiple_target - 1) /
          cfg.multiple_target)).map fun j =>
        pySlice idxs (j * cfg.multiple_target)
          (j * cfg.multiple_target + cfg.multiple_target) cfg.seq_step).take
        (idxs.length / cfg.multiple_target) := by
    simp [seqsOfVideo, hm']
  rw [hbranch]
  have hle : idxs.length / cfg.multiple_target ≤
      (idxs.length + cfg.multiple_target - 1) / cfg.multiple_target :=
    Nat.div_le_div_right (by omega)
  refine ⟨?_, ?_⟩
  · simp only [List.length_take, List.length_map, List.length_range]
    omega
  intro j hj
  have hjlt : j < (idxs.length + cfg.multiple_target - 1) / cfg.multiple_target :=
    lt_of_lt_of_le hj hle
  have hwin : j * cfg.multiple_target + cfg.multiple_target ≤ idxs.length :=
    mul_add_le_of_lt_div hj
  constructor
  · rw [List.getElem?_take, if_pos hj, List.getElem?_map, List.getElem?_range hjlt]
    simp only [Option.map_some']
    rw [pySlice, List.drop_take,
      show j * cfg.multiple_target + cfg.multiple_target - j * cfg.multiple_target
          = cfg.multiple_target by omega]
  · rw [everyNth_length _ hs]
    have hlen : ((idxs.drop (j * cfg.multiple_target)).take
        cfg.multiple_target).length = cfg.multiple_target := by
      simp only [List.length_take, List.length_drop]
      omega
    rw [hlen]

/-! ### C5: the subset-reduction slice -/

/-- A three-frame single-video annotation table: the names parse to the key
`(S1, A, C)`. -/
def cexNames : List (List Char) :=
  [['S', '1', '_', 'A', '.', 'C', '_', '1'],
   ['S', '1', '_', 'A', '.', 'C', '_', '2'],
   ['S', '1', '_', 'A', '.', 'C', '_', '3']]

def cexCfgC5 : SeqCfg := { subset_num := 1, subset_den := 2 }

/-- C5 counterexample: with three sequences and `subset_frac = 1/2` the code
keeps `int(3 * 0.5) = 1` sequence, not `round(3 * 0.5) = 2` as the claim
states. -/
theorem claim_C5_cex :
    allSequences cexCfgC5 cexNames = some [[0], [1], [2]] ∧
    get_sequence_indices cexCfgC5 cexNames 0 = some [[0]] ∧
    ([[0]] : List (List Nat)).length ≠
      (round ((([[0], [1], [2]] : List (List Nat)).length : ℚ) * (1 / 2))).toNat := by
  refine ⟨by decide, by decide, ?_⟩
  have h32 : ((([[0], [1], [2]] : List (List Nat)).length : ℚ) * (1 / 2)) = 3 / 2 := by
    norm_num
  rw [h32]
  norm_num [round_eq]
  decide

/-- C5 amended: for `subset_frac = p/q` and any valid random start `r`, the
output is the contiguous slice of the full per-video sequence list starting
at `r` of length `int(total * subset_frac)` — `⌊total * p / q⌋`, truncation
toward zero, not `round` — with the order of the kept sequences unchanged. -/
theorem claim_C5_amended (cfg : SeqCfg) (names : List (List Char)) (r : Nat)
    (full : List (List Nat)) (hfull : allSequences cfg names = some full)
    (hr : r + subsetSize cfg.subset_num cfg.subset_den full.length ≤ full.length) :
    ∃ out, get_sequence_indices cfg names r = some out ∧
      out.length = subsetSize cfg.subset_num cfg.subset_den full.length ∧
      ∃ pre suf, full = pre ++ out ++ suf ∧ pre.length = r := by
  refine ⟨(full.drop r).take (subsetSize cfg.subset_num cfg.subset_den full.length),
    ?_, ?_, full.take r, full.drop (r + subsetSize cfg.subset_num cfg.subset_den full.length),
    ?_, ?_⟩
  · rw [get_sequence_indices, hfull, Option.map_some']
  · simp only [List.length_take, List.length_drop]
    omega
  · conv_lhs => rw [← List.take_append_drop r full]
    rw [List.append_assoc]
    congr 1
    conv_lhs =>
      rw [← List.take_append_drop (subsetSize cfg.subset_num cfg.subset_den
        full.length) (full.drop r)]
    rw [List.drop_drop]
  · simp only [List.length_take]
    omega

def cfgC5W : SeqCfg := { subset_num := 2, subset_den := 3 }

/-- Witness for the amended C5 at a concrete table: `subset_frac = 2/3`,
start `r = 1`, three sequences. -/
theorem claim_C5_amended_witness :
    ∃ out, get_sequence_indices cfgC5W cexNames 1 = some out ∧
      out.length = subsetSize cfgC5W.subset_num cfgC5W.subset_den
        ([[0], [1], [2]] : List (List Nat)).length ∧
      ∃ pre suf, ([[0], [1], [2]] : List (List Nat)) = pre ++ out ++ suf ∧
        pre.length = 1 :=
  claim_C5_amended cfgC5W cexNames 1 [[0], [1], [2]] (by decide) (by decide)

/-! ### C6: determinism -/

def cexCfgC6 : SeqCfg := { subset_num := 1, subset_den := 3 }

/-- C6 counterexample: with `subset_frac = 1/3` on a three-sequence table,
both `r = 0` and `r = 1` are valid draws of
`np.random.randint(0, len - subset_size + 1)`, and they produce different
outputs, so two runs need not return the same list. -/
theorem claim_C6_cex :
    get_sequence_indices cexCfgC6 cexNames 0 = some [[0]] ∧
    get_sequence_indices cexCfgC6 cexNames 1 = some [[1]] ∧
    get_sequence_indices cexCfgC6 cexNames 0 ≠
      get_sequence_indices cexCfgC6 cexNames 1 := by
  refine ⟨by decide, by decide, by decide⟩

/-- C6 amended: the result is deterministic whenever `subset_frac = 1`
(`subset_num = subset_den ≠ 0`): the subset keeps everything, the only valid
random draw is `0`, and any two valid draws give the same output.  For
`subset_frac < 1` the output depends on the random start (see the
counterexample). -/
theorem claim_C6_amended (cfg : SeqCfg) (names : List (List Char))
    (r₁ r₂ : Nat) (full : List (List Nat))
    (hfrac : cfg.subset_num = cfg.subset_den) (hden : 0 < cfg.subset_den)
    (hfull : allSequences cfg names = some full)
    (h₁ : r₁ + subsetSize cfg.subset_num cfg.subset_den full.length ≤ full.length)
    (h₂ : r₂ + subsetSize cfg.subset_num cfg.subset_den full.length ≤ full.length) :
    get_sequence_indices cfg names r₁ = get_sequence_indices cfg names r₂ := by
  have hsz : subsetSize cfg.subset_num cfg.subset_den full.length = full.length := by
    rw [subsetSize, hfrac]
    exact Nat.mul_div_left full.length hden
  have hr₁ : r₁ = 0 := by omega
  have hr₂ : r₂ = 0 := by omega
  rw [hr₁, hr₂]

/-- Witness for the amended C6 at a concrete table. -/
theorem claim_C6_amended_witness :
    get_sequence_indices {} cexNames 0 = get_sequence_indices {} cexNames 0 :=
  claim_C6_amended {} cexNames 0 0 [[0], [1], [2]] (by decide) (by decide)
    (by decide) (by decide) (by decide)

/-! ### C1: the `pad_video_seq` branch -/

/-- Window-length arithmetic for one padded frame: left padding plus kept
window elements plus right padding always total `frames_left + frames_right
+ 1`. -/
theorem pad_window_length (fl fr s n i : Nat) (hs : 0 < s) (hi : i < n) :
    (fl - i / s) +
      (min (min (n - (n - 1 - i) % s) (i + fr * s + 1)) n
          - max (i % s) (i - fl * s) + s - 1) / s +
      (fr - (n - 1 - i) / s) = fl + fr + 1 := by
  have hdm := Nat.div_add_mod i s
  have hdm' := Nat.div_add_mod (n - 1 - i) s
  have hmod : i % s < s := Nat.mod_lt i hs
  have hmod' : (n - 1 - i) % s < s := Nat.mod_lt _ hs
  rcases le_or_lt fl (i / s) with hfl | hfl <;>
    rcases le_or_lt fr ((n - 1 - i) / s) with hfr | hfr
  · -- no padding on either side: a = fl, b = fr
    have h1 : fl * s ≤ s * (i / s) := by
      calc fl * s ≤ i / s * s := Nat.mul_le_mul_right s hfl
        _ = s * (i / s) := Nat.mul_comm _ _
    have h2 : fr * s ≤ s * ((n - 1 - i) / s) := by
      calc fr * s ≤ (n - 1 - i) / s * s := Nat.mul_le_mul_right s hfr
        _ = s * ((n - 1 - i) / s) := Nat.mul_comm _ _
    have hexp : (fl + fr + 1) * s = fl * s + fr * s + s := by ring
    have hnum : min (min (n - (n - 1 - i) % s) (i + fr * s + 1)) n
        - max (i % s) (i - fl * s) + s - 1 = (fl + fr + 1) * s := by omega
    rw [hnum, Nat.mul_div_left _ hs]
    omega
  · -- right padding only: a = fl, b = (n - 1 - i) / s
    have h1 : fl * s ≤ s * (i / s) := by
      calc fl * s ≤ i / s * s := Nat.mul_le_mul_right s hfl
        _ = s * (i / s) := Nat.mul_comm _ _
    have h2 : s * ((n - 1 - i) / s) + s ≤ fr * s := by
      calc s * ((n - 1 - i) / s) + s = s * ((n - 1 - i) / s + 1) := by ring
        _ ≤ s * fr := Nat.mul_le_mul_left s (by omega)
        _ = fr * s := Nat.mul_comm _ _
    have hexp : (fl + (n - 1 - i) / s + 1) * s
        = fl * s + s * ((n - 1 - i) / s) + s := by ring
    have hnum : min (min (n - (n - 1 - i) % s) (i + fr * s + 1)) n
        - max (i % s) (i - fl * s) + s - 1
        = (fl + (n - 1 - i) / s + 1) * s := by omega
    rw [hnum, Nat.mul_div_left _ hs]
    omega
  · -- left padding only: a = i / s, b = fr
    have h1 : s * (i / s) + s ≤ fl * s := by
      calc s * (i / s) + s = s * (i / s + 1) := by ring
        _ ≤ s * fl := Nat.mul_le_mul_left s (by omega)
        _ = fl * s := Nat.mul_comm _ _
    have h2 : fr * s ≤ s * ((n - 1 - i) / s) := by
      calc fr * s ≤ (n - 1 - i) / s * s := Nat.mul_le_mul_right s hfr
        _ = s * ((n - 1 - i) / s) := Nat.mul_comm _ _
    have hexp : (i / s + fr + 1) * s = s * (i / s) + fr * s + s := by ring
    have hnum : min (min (n - (n - 1 - i) % s) (i + fr * s + 1)) n
        - max (i % s) (i - fl * s) + s - 1 = (i / s + fr + 1) * s := by omega
    rw [hnum, Nat.mul_div_left _ hs]
    omega
  · -- padding on both sides: a = i / s, b = (n - 1 - i) / s
    have h1 : s * (i / s) + s ≤ fl * s := by
      calc s * (i / s) + s = s * (i / s + 1) := by ring
        _ ≤ s * fl := Nat.mul_le_mul_left s (by omega)
        _ = fl * s := Nat.mul_comm _ _
    have h2 : s * ((n - 1 - i) / s) + s ≤ fr * s := by
      calc s * ((n - 1 - i) / s) + s = s * ((n - 1 - i) / s + 1) := by ring
        _ ≤ s * fr := Nat.mul_le_mul_left s (by omega)
        _ = fr * s := Nat.mul_comm _ _
    have hexp : (i / s + (n - 1 - i) / s + 1) * s
        = s * (i / s) + s * ((n - 1 - i) / s) + s := by ring
    have hnum : min (min (n - (n - 1 - i) % s) (i + fr * s + 1)) n
        - max (i % s) (i - fl * s) + s - 1
        = (i / s + (n - 1 - i) / s + 1) * s := by omega
    rw [hnum, Nat.mul_div_left _ hs]
    omega

theorem headD_mem {l : List Nat} (h : l ≠ []) : l.headD 0 ∈ l := by
  cases l with
  | nil => exact absurd rfl h
  | cons a as => simp

theorem getLastD_mem {l : List Nat} (h : l ≠ []) : l.getLastD 0 ∈ l := by
  rw [List.getLastD_eq_getLast?, List.getLast?_eq_getLast l h]
  exact List.getLast_mem h

theorem padSeqsOfVideo_mem_length (seq_len step : Nat) (causal : Bool)
    (idxs : List Nat) (hs : 0 < step) (hl : 0 < seq_len) :
    ∀ s ∈ padSeqsOfVideo seq_len step causal idxs,
      s.length = if causal then seq_len else 2 * ((seq_len - 1) / 2) + 1 := by
  intro s hmem
  rw [padSeqsOfVideo] at hmem
  simp only [List.mem_map, List.mem_range] at hmem
  obtain ⟨i, hi, rfl⟩ := hmem
  have key := pad_window_length
    (if causal then seq_len - 1 else (seq_len - 1) / 2)
    (if causal then 0 else (seq_len - 1) / 2) step idxs.length i hs hi
  simp only [List.length_append, List.length_replicate,
    pySlice_length _ _ _ _ hs]
  cases causal with
  | false =>
    simp only [Bool.false_eq_true, if_false] at key ⊢
    omega
  | true =>
    simp only [if_true] at key ⊢
    omega

theorem padSeqsOfVideo_mem_subset (seq_len step : Nat) (causal : Bool)
    (idxs : List Nat) (s : List Nat)
    (hmem : s ∈ padSeqsOfVideo seq_len step causal idxs) :
    ∀ x ∈ s, x ∈ idxs := by
  rw [padSeqsOfVideo] at hmem
  simp only [List.mem_map, List.mem_range] at hmem
  obtain ⟨i, hi, rfl⟩ := hmem
  have hne : idxs ≠ [] := by
    intro h
    rw [h] at hi
    simp at hi
  intro x hx
  rcases List.mem_append.mp hx with hx' | hx'
  · rcases List.mem_append.mp hx' with h1 | h1
    · rw [List.eq_of_mem_replicate h1]
      exact headD_mem hne
    · exact (pySlice_sublist _ _ _ _).subset h1
  · rw [List.eq_of_mem_replicate hx']
    exact getLastD_mem hne

def cexCfgC1 : SeqCfg :=
  { seq_len := 2, seq_step := 1, pad_video_seq := true, causal := false }

def cexNamesC1 : List (List Char) :=
  [['S', '1', '_', 'A', '.', 'C', '_', '1'],
   ['S', '1', '_', 'A', '.', 'C', '_', '2']]

/-- C1 counterexample: non-causal padding with even `seq_len = 2` (and
`seq_step = 1`) over a two-frame video emits one sequence per frame, but each
has 1 element, not `seq_len = 2`. -/
theorem claim_C1_cex :
    get_sequence_indices cexCfgC1 cexNamesC1 0 = some [[0], [1]] ∧
    ∀ s ∈ ([[0], [1]] : List (List Nat)), s.length ≠ cexCfgC1.seq_len := by
  exact ⟨by decide, by decide⟩

/-- C1 amended: with `multiple_target = 0` and `pad_video_seq = True`, one
sequence is emitted per frame of the video; in the causal setting each has
exactly `seq_len` elements, while in the non-causal setting each has
`2*((seq_len-1)/2) + 1` elements (`seq_len` when `seq_len` is odd,
`seq_len - 1` when it is even); every element of an emitted sequence is an
index of the source video, the out-of-range positions being filled with the
video's first/last frame index verbatim, never by extrapolation. -/
theorem claim_C1_amended (cfg : SeqCfg) (idxs : List Nat)
    (hmt : cfg.multiple_target = 0) (hpad : cfg.pad_video_seq = true)
    (hl : 0 < cfg.seq_len) (hs : 0 < cfg.seq_step) :
    (seqsOfVideo cfg idxs).length = idxs.length ∧
    ∀ s ∈ seqsOfVideo cfg idxs,
      s.length = (if cfg.causal then cfg.seq_len
        else 2 * ((cfg.seq_len - 1) / 2) + 1) ∧
      ∀ x ∈ s, x ∈ idxs := by
  have hbranch : seqsOfVideo cfg idxs =
      padSeqsOfVideo cfg.seq_len cfg.seq_step cfg.causal idxs := by
    simp [seqsOfVideo, hmt, hpad]
  rw [hbranch]
  refine ⟨by simp [padSeqsOfVideo], fun s hmem => ⟨?_, ?_⟩⟩
  · exact padSeqsOfVideo_mem_length cfg.seq_len cfg.seq_step cfg.causal idxs
      hs hl s hmem
  · exact padSeqsOfVideo_mem_subset cfg.seq_len cfg.seq_step cfg.causal idxs
      s hmem

/-- Witness for the amended C1: causal padding, `seq_len = 3`, `seq_step = 2`
over a five-frame video. -/
theorem claim_C1_amended_witness :
    (seqsOfVideo { seq_len := 3, seq_step := 2, pad_video_seq := true }
        (List.range 5)).length = (List.range 5).length ∧
    ∀ s ∈ seqsOfVideo { seq_len := 3, seq_step := 2, pad_video_seq := true }
        (List.range 5),
      s.length = (if ({ seq_len := 3, seq_step := 2, pad_video_seq := true }
          : SeqCfg).causal then 3 else 2 * ((3 - 1) / 2) + 1) ∧
      ∀ x ∈ s, x ∈ List.range 5 :=
  claim_C1_amended { seq_len := 3, seq_step := 2, pad_video_seq := true }
    (List.range 5) (by decide) (by decide) (by decide) (by decide)

/-! ### C7: sequences stay inside their source video, in temporal order -/

theorem videoFrames_sorted (names : List (List Char)) (k : VideoKey) :
    (videoFrames names k).Sorted (· ≤ ·) := by
  rw [videoFrames]
  exact ((List.pairwise_lt_range _).filter _).imp fun h => le_of_lt h

theorem sorted_le_getLastD {l : List Nat} (hl : l.Sorted (· ≤ ·)) :
    ∀ x ∈ l, x ≤ l.getLastD 0 := by
  induction l with
  | nil => simp
  | cons a as ih =>
    intro x hx
    cases as with
    | nil =>
      rw [List.mem_singleton.mp hx]
      simp [List.getLastD]
    | cons b bs =>
      have hlast : (a :: b :: bs).getLastD 0 = (b :: bs).getLastD 0 := by
        rw [List.getLastD_eq_getLast?, List.getLastD_eq_getLast?,
          List.getLast?_cons_cons]
      rw [hlast]
      rcases List.mem_cons.mp hx with rfl | hx'
      · have hab : x ≤ b := List.rel_of_sorted_cons hl b (by simp)
        have hbl : b ≤ (b :: bs).getLastD 0 := ih hl.of_cons b (by simp)
        omega
      · exact ih hl.of_cons x hx'

theorem sorted_headD_le {l : List Nat} (hl : l.Sorted (· ≤ ·)) :
    ∀ x ∈ l, l.headD 0 ≤ x := by
  cases l with
  | nil => simp
  | cons a as =>
    intro x hx
    rcases List.mem_cons.mp hx with rfl | hx'
    · simp
    · simpa using List.rel_of_sorted_cons hl x hx'

theorem padSeqsOfVideo_mem_sorted (seq_len step : Nat) (causal : Bool)
    (idxs : List Nat) (hsorted : idxs.Sorted (· ≤ ·)) (s : List Nat)
    (hmem : s ∈ padSeqsOfVideo seq_len step causal idxs) :
    s.Sorted (· ≤ ·) := by
  rw [padSeqsOfVideo] at hmem
  simp only [List.mem_map, List.mem_range] at hmem
  obtain ⟨i, hi, rfl⟩ := hmem
  have hmid : ∀ x ∈ pySlice idxs (max (i % step)
      (i - (if causal then seq_len - 1 else (seq_len - 1) / 2) * step))
      (min (idxs.length - (idxs.length - 1 - i) % step)
        (i + (if causal then 0 else (seq_len - 1) / 2) * step + 1)) step,
      x ∈ idxs := fun x hx => (pySlice_sublist _ _ _ _).subset hx
  rw [List.Sorted, List.pairwise_append]
  refine ⟨?_, ?_, ?_⟩
  · rw [List.pairwise_append]
    refine ⟨List.pairwise_replicate.mpr (Or.inr le_rfl),
      List.Pairwise.sublist (pySlice_sublist _ _ _ _) hsorted, ?_⟩
    intro a ha b hb
    rw [List.eq_of_mem_replicate ha]
    exact sorted_headD_le hsorted b (hmid b hb)
  · exact List.pairwise_replicate.mpr (Or.inr le_rfl)
  · intro a ha b hb
    rw [List.eq_of_mem_replicate hb]
    rcases List.mem_append.mp ha with ha' | ha'
    · have : a = idxs.headD 0 := List.eq_of_mem_replicate ha'
      subst this
      have hne : idxs ≠ [] := by
        intro h
        rw [h] at hi
        simp at hi
      exact sorted_le_getLastD hsorted _ (headD_mem hne)
    · exact sorted_le_getLastD hsorted a (hmid a ha')

theorem seqsOfVideo_mem (cfg : SeqCfg) (idxs : List Nat)
    (hsorted : idxs.Sorted (· ≤ ·)) (s : List Nat)
    (hmem : s ∈ seqsOfVideo cfg idxs) :
    (∀ x ∈ s, x ∈ idxs) ∧ s.Sorted (· ≤ ·) := by
  by_cases hm : cfg.multiple_target = 0
  · by_cases hp : cfg.pad_video_seq
    · have hb : seqsOfVideo cfg idxs =
          padSeqsOfVideo cfg.seq_len cfg.seq_step cfg.causal idxs := by
        simp [seqsOfVideo, hm, hp]
      rw [hb] at hmem
      exact ⟨padSeqsOfVideo_mem_subset _ _ _ _ s hmem,
        padSeqsOfVideo_mem_sorted _ _ _ _ hsorted s hmem⟩
    · have hb : seqsOfVideo cfg idxs =
          (List.range ((idxs.length + 1)
              - ((cfg.seq_len - 1) * cfg.seq_step + 1))).map fun i =>
            pySlice idxs i (i + ((cfg.seq_len - 1) * cfg.seq_step + 1))
              cfg.seq_step := by
        simp [seqsOfVideo, hm, hp]
      rw [hb] at hmem
      simp only [List.mem_map, List.mem_range] at hmem
      obtain ⟨i, hi, rfl⟩ := hmem
      exact ⟨fun x hx => (pySlice_sublist _ _ _ _).subset hx,
        List.Pairwise.sublist (pySlice_sublist _ _ _ _) hsorted⟩
  · have hb : seqsOfVideo cfg idxs =
        ((List.range ((idxs.length + cfg.multiple_target - 1) /
            cfg.multiple_target)).map fun j =>
          pySlice idxs (j * cfg.multiple_target)
            (j * cfg.multiple_target + cfg.multiple_target) cfg.seq_step).take
          (idxs.length / cfg.multiple_target) := by
      simp [seqsOfVideo, hm]
    rw [hb] at hmem
    have hmem' := List.mem_of_mem_take hmem
    simp only [List.mem_map, List.mem_range] at hmem'
    obtain ⟨j, hj, rfl⟩ := hmem'
    exact ⟨fun x hx => (pySlice_sublist _ _ _ _).subset hx,
      List.Pairwise.sublist (pySlice_sublist _ _ _ _) hsorted⟩

/-- C7: every sequence returned by `get_sequence_indices` references only
frame indices of the single video group it was built from, and the indices
inside a sequence are in non-decreasing per-video temporal order. -/
theorem claim_C7 (cfg : SeqCfg) (names : List (List Char)) (r : Nat)
    (out : List (List Nat)) (h : get_sequence_indices cfg names r = some out) :
    ∀ s ∈ out, ∃ k : VideoKey,
      (∀ x ∈ s, x ∈ videoFrames names k) ∧ s.Sorted (· ≤ ·) := by
  intro s hs
  rw [get_sequence_indices] at h
  rcases hall : allSequences cfg names with _ | full
  · rw [hall] at h
    simp at h
  · rw [hall] at h
    simp only [Option.map_some', Option.some.injEq] at h
    subst h
    have hfull : s ∈ full := List.mem_of_mem_drop (List.mem_of_mem_take hs)
    rw [allSequences] at hall
    by_cases hp : names.all fun nm => (parseImgname nm).isSome
    · rw [if_pos hp, Option.some.injEq] at hall
      rw [← hall] at hfull
      rcases List.mem_flatten.mp hfull with ⟨l, hl, hsl⟩
      rcases List.mem_map.mp hl with ⟨k, _hk, rfl⟩
      obtain ⟨hsub, hsort⟩ := seqsOfVideo_mem cfg (videoFrames names k)
        (videoFrames_sorted names k) s hsl
      exact ⟨k, hsub, hsort⟩
    · rw [if_neg hp] at hall
      exact absurd hall (by simp)

/-- Witness for C7 at a concrete three-frame table, instantiated at the first
emitted sequence. -/
theorem claim_C7_witness :
    ∃ k : VideoKey, (∀ x ∈ ([0] : List Nat), x ∈ videoFrames cexNames k) ∧
      ([0] : List Nat).Sorted (· ≤ ·) :=
  claim_C7 {} cexNames 0 [[0], [1], [2]] (by decide) [0] (by decide)

/-! ### The `MonoPoseLifting` codec (spec-modelled)

The codec class itself is not part of the sources (only its test suite is),
so it is modelled from the specification.  Python float arrays are embedded
as lists of rationals; a 3D point is a `Vec3`, so `target_root : List Vec3`
has shape `[N, 3]` structurally. -/

abbrev Vec3 := ℚ × ℚ × ℚ

/-- Modelled from the spec: the `MonoPoseLifting` codec options
(`zero_center` default on, `remove_root` default off, plus `save_index` and
`concat_vis`); the root joint is joint `0` by convention. -/
structure CodecCfg where
  zero_center : Bool := true
  remove_root : Bool := false
  save_index : Bool := false
  concat_vis : Bool := false

/-- Modelled from the spec: the `EncodedLabel` bundle
`{keypoint_labels, lifting_target_label, lifting_target_weights,
trajectory_weights, target_root, optionally
target_root_removed/target_root_index}`. -/
structure EncodedLabel where
  keypoint_labels : List (List (List ℚ))
  lifting_target_label : List (List Vec3)
  lifting_target_weights : List (List ℚ)
  trajectory_weights : List (List ℚ)
  target_root : List Vec3
  target_root_removed : Option (List (List Vec3))
  target_root_index : Option Nat

def subV (a b : Vec3) : Vec3 := (a.1 - b.1, a.2.1 - b.2.1, a.2.2 - b.2.2)

def addV (a b : Vec3) : Vec3 := (a.1 + b.1, a.2.1 + b.2.1, a.2.2 + b.2.2)

/-- The root joint (index 0) of a frame. -/
def rootOf (frame : List Vec3) : Vec3 := frame.headD (0, 0, 0)

/-- Modelled from the spec: `MonoPoseLifting.encode`.  Steps: optional
visibility concatenation onto the 2D keypoint label; `zero_center` subtracts
the root joint from every 3D joint and records the root as `target_root`
(when disabled the 2D keypoints are instead normalized by the camera frame
size); `remove_root` drops the root row from the 3D label and, with
`save_index`, returns the pre-drop label and the root index; per-joint
weights are the visibility flags. -/
def encode (cfg : CodecCfg) (kpts : List (List (ℚ × ℚ)))
    (vis : List (List ℚ)) (target : List (List Vec3))
    (tvis : List (List ℚ)) (w h : ℚ) : EncodedLabel :=
  let base2d :=
    if cfg.zero_center then
      kpts.map fun f => f.map fun p => [p.1, p.2]
    else
      kpts.map fun f => f.map fun p => [2 * p.1 / w - 1, 2 * p.2 / h - 1]
  let klabels :=
    if cfg.concat_vis then
      (base2d.zip vis).map fun fv => (fv.1.zip fv.2).map fun jv => jv.1 ++ [jv.2]
    else base2d
  let centered :=
    if cfg.zero_center then
      target.map fun f => f.map fun j => subV j (rootOf f)
    else target
  let label :=
    if cfg.remove_root then centered.map fun f => f.eraseIdx 0 else centered
  { keypoint_labels := klabels
    lifting_target_label := label
    lifting_target_weights := tvis
    trajectory_weights := tvis
    target_root := target.map rootOf
    target_root_removed :=
      if cfg.remove_root && cfg.save_index then some centered else none
    target_root_index :=
      if cfg.remove_root && cfg.save_index then some 0 else none }

/-- Modelled from the spec: `MonoPoseLifting.decode`.  With `target_root`
supplied, the root is added back to every predicted joint and, when
`remove_root` is set, the root is reinserted at its original index 0; with
`w`/`h` supplied instead, 2D-derived coordinates are denormalized by the
frame size.  Scores default to `1.0` per joint (shape contract only). -/
def decode (cfg : CodecCfg) (pred : List (List Vec3))
    (target_root : Option (List Vec3)) (w h : Option (List ℚ)) :
    List (List Vec3) × List (List ℚ) :=
  let coords :=
    match target_root with
    | some roots =>
      (pred.zip roots).map fun fr =>
        if cfg.remove_root then fr.2 :: fr.1.map (fun j => addV j fr.2)
        else fr.1.map fun j => addV j fr.2
    | none =>
      match w, h with
      | some ws, some hs =>
        (pred.zip (ws.zip hs)).map fun fwh =>
          fwh.1.map fun j =>
            ((j.1 + 1) * fwh.2.1 / 2, (j.2.1 + 1) * fwh.2.2 / 2, j.2.2)
      | _, _ => pred
  (coords, coords.map fun f => f.map fun _ => 1)

/-- Componentwise closeness within absolute tolerance `t`
(`np.allclose(..., atol=t)` on exact rationals). -/
def close3 (t : ℚ) (a b : Vec3) : Prop :=
  |a.1 - b.1| ≤ t ∧ |a.2.1 - b.2.1| ≤ t ∧ |a.2.2 - b.2.2| ≤ t

/-- `np.allclose` on `[N, K, 3]` arrays: same shape and componentwise within
tolerance. -/
def allClose (t : ℚ) (xs ys : List (List Vec3)) : Prop :=
  List.Forall₂ (List.Forall₂ (close3 t)) xs ys

/-! ### C2: encode/decode round trip -/

theorem addV_subV (j r : Vec3) : addV (subV j r) r = j := by
  obtain ⟨x, y, z⟩ := j
  simp [addV, subV]

theorem zip_map_self (f : α → β) (l : List α) :
    l.zip (l.map f) = l.map fun a => (a, f a) := by
  induction l with
  | nil => rfl
  | cons a as ih => simp [ih]

theorem forall₂_map_self {R : α → β → Prop} (f : α → β) (l : List α)
    (h : ∀ x ∈ l, R x (f x)) : List.Forall₂ R l (l.map f) := by
  induction l with
  | nil => constructor
  | cons a as ih =>
    exact List.Forall₂.cons (h a (by simp))
      (ih fun x hx => h x (List.mem_cons_of_mem a hx))

theorem close3_refl (x : Vec3) : close3 5 x x := by
  norm_num [close3]

theorem close3_addV {r : Vec3}
    (hr : |r.1| ≤ 5 ∧ |r.2.1| ≤ 5 ∧ |r.2.2| ≤ 5) (x : Vec3) :
    close3 5 x (addV x r) := by
  obtain ⟨h1, h2, h3⟩ := hr
  refine ⟨?_, ?_, ?_⟩ <;> simp only [addV]
  · rw [show x.1 - (x.1 + r.1) = -r.1 by ring, abs_neg]
    exact h1
  · rw [show x.2.1 - (x.2.1 + r.2.1) = -r.2.1 by ring, abs_neg]
    exact h2
  · rw [show x.2.2 - (x.2.2 + r.2.2) = -r.2.2 by ring, abs_neg]
    exact h3

theorem forall₂_close_refl (l : List Vec3) : List.Forall₂ (close3 5) l l :=
  List.forall₂_same.mpr fun x _ => close3_refl x

theorem forall₂_close_add {r : Vec3}
    (hr : |r.1| ≤ 5 ∧ |r.2.1| ≤ 5 ∧ |r.2.2| ≤ 5) (l : List Vec3) :
    List.Forall₂ (close3 5) l (l.map fun j => addV j r) :=
  forall₂_map_self _ l fun x _ => close3_addV hr x

/-- C2 counterexample: with `zero_center = False` the 3D label is not
root-centred, but `decode` still adds `target_root` back, so for a target
with root `(10, 10, 10)` the reconstruction is off by `10 > 5`: the claimed
round trip fails for this combination. -/
theorem claim_C2_cex :
    ¬ allClose 5 [[((10 : ℚ), (10 : ℚ), (10 : ℚ))]]
      (decode { zero_center := false }
        (encode { zero_center := false } [] [] [[((10 : ℚ), (10 : ℚ), (10 : ℚ))]]
          [] 1 1).lifting_target_label
        (some ([[((10 : ℚ), (10 : ℚ), (10 : ℚ))]].map rootOf)) none none).1 := by
  have hdec : (decode { zero_center := false }
      (encode { zero_center := false } [] [] [[((10 : ℚ), (10 : ℚ), (10 : ℚ))]]
        [] 1 1).lifting_target_label
      (some ([[((10 : ℚ), (10 : ℚ), (10 : ℚ))]].map rootOf)) none none).1
      = [[((20 : ℚ), (20 : ℚ), (20 : ℚ))]] := by
    simp [decode, encode, rootOf, addV]
    norm_num
  rw [hdec]
  intro hcontra
  rcases hcontra with _ | ⟨hf, -⟩
  rcases hf with _ | ⟨hj, -⟩
  rcases hj with ⟨h1, -⟩
  norm_num at h1

/-- C2 amended: the round trip
`decode (encode x).lifting_target_label (target_root = x[...,0,:]) ≈ x`
within absolute tolerance 5 holds for every combination of
`zero_center`/`remove_root` provided every coordinate of each frame root
has absolute value at most 5 (as in the test data, drawn from `(0.1, 0.9)`);
with `zero_center` on the round trip is exact, with it off the
reconstruction differs by exactly the root. -/
theorem claim_C2_amended (cfg : CodecCfg)
    (kpts : List (List (ℚ × ℚ))) (vis : List (List ℚ))
    (target : List (List Vec3)) (tvis : List (List ℚ)) (w h : ℚ)
    (hne : ∀ f ∈ target, f ≠ [])
    (hroot : ∀ f ∈ target,
      |(rootOf f).1| ≤ 5 ∧ |(rootOf f).2.1| ≤ 5 ∧ |(rootOf f).2.2| ≤ 5) :
    allClose 5 target
      (decode cfg (encode cfg kpts vis target tvis w h).lifting_target_label
        (some (target.map rootOf)) none none).1 := by
  rcases hzc : cfg.zero_center with _ | _ <;>
    rcases hrr : cfg.remove_root with _ | _
  · -- zero_center = false, remove_root = false: shift by the root
    have hcoords : (decode cfg
        (encode cfg kpts vis target tvis w h).lifting_target_label
        (some (target.map rootOf)) none none).1
        = target.map fun f => f.map fun j => addV j (rootOf f) := by
      simp [decode, encode, hzc, hrr, zip_map_self]
    rw [allClose, hcoords]
    exact forall₂_map_self _ target fun f hf => forall₂_close_add (hroot f hf) f
  · -- zero_center = false, remove_root = true: root exact, rest shifted
    have hcoords : (decode cfg
        (encode cfg kpts vis target tvis w h).lifting_target_label
        (some (target.map rootOf)) none none).1
        = target.map fun f =>
            rootOf f :: (f.eraseIdx 0).map fun j => addV j (rootOf f) := by
      simp [decode, encode, hzc, hrr, List.zip_map']
    rw [allClose, hcoords]
    refine forall₂_map_self _ target fun f hf => ?_
    obtain ⟨a, rest, rfl⟩ : ∃ a rest, f = a :: rest := by
      rcases f with - | ⟨a, rest⟩
      · exact absurd rfl (hne _ hf)
      · exact ⟨a, rest, rfl⟩
    simp only [rootOf, List.headD_cons, List.eraseIdx_cons_zero]
    exact List.Forall₂.cons (close3_refl a)
      (forall₂_close_add (by simpa [rootOf] using hroot _ hf) rest)
  · -- zero_center = true, remove_root = false: exact round trip
    have hcoords : (decode cfg
        (encode cfg kpts vis target tvis w h).lifting_target_label
        (some (target.map rootOf)) none none).1
        = target.map fun f =>
            (f.map fun j => subV j (rootOf f)).map fun j => addV j (rootOf f) := by
      simp [decode, encode, hzc, hrr, List.zip_map']
    rw [allClose, hcoords]
    refine forall₂_map_self _ target fun f hf => ?_
    have hid : ((f.map fun j => subV j (rootOf f)).map
        fun j => addV j (rootOf f)) = f := by
      rw [List.map_map]
      have : ((fun j => addV j (rootOf f)) ∘ fun j => subV j (rootOf f))
          = id := by
        funext j
        simp [Function.comp, addV_subV]
      rw [this, List.map_id]
    rw [hid]
    exact forall₂_close_refl f
  · -- zero_center = true, remove_root = true: exact round trip via reinsertion
    have hcoords : (decode cfg
        (encode cfg kpts vis target tvis w h).lifting_target_label
        (some (target.map rootOf)) none none).1
        = target.map fun f =>
            rootOf f :: (((f.map fun j => subV j (rootOf f)).eraseIdx 0).map
              fun j => addV j (rootOf f)) := by
      simp [decode, encode, hzc, hrr, List.zip_map', List.map_map]
    rw [allClose, hcoords]
    refine forall₂_map_self _ target fun f hf => ?_
    obtain ⟨a, rest, rfl⟩ : ∃ a rest, f = a :: rest := by
      rcases f with - | ⟨a, rest⟩
      · exact absurd rfl (hne _ hf)
      · exact ⟨a, rest, rfl⟩
    simp only [rootOf, List.headD_cons, List.map_cons, List.eraseIdx_cons_zero,
      List.map_map]
    have : ((fun j => addV j a) ∘ fun j => subV j a) = id := by
      funext j
      simp [Function.comp, addV_subV]
    rw [this, List.map_id]
    exact List.Forall₂.cons (close3_refl a) (forall₂_close_refl rest)

/-- Witness for the amended C2: a two-joint, one-frame target with default
codec settings. -/
theorem claim_C2_amended_witness :
    allClose 5 [[((1 : ℚ), (2 : ℚ), (3 : ℚ)), ((4 : ℚ), (5 : ℚ), (6 : ℚ))]]
      (decode {} (encode {} [] []
          [[((1 : ℚ), (2 : ℚ), (3 : ℚ)), ((4 : ℚ), (5 : ℚ), (6 : ℚ))]]
          [] 1 1).lifting_target_label
        (some ([[((1 : ℚ), (2 : ℚ), (3 : ℚ)), ((4 : ℚ), (5 : ℚ), (6 : ℚ))]].map
          rootOf)) none none).1 :=
  claim_C2_amended {} [] []
    [[((1 : ℚ), (2 : ℚ), (3 : ℚ)), ((4 : ℚ), (5 : ℚ), (6 : ℚ))]] [] 1 1
    (by simp) (by norm_num [rootOf])

/-! ### C9: encode shape contracts -/

/-- C9: for an `[N, K]`-shaped input, `keypoint_labels` has trailing
dimension 2 (3 when `concat_vis`), `lifting_target_label` has `K` joints
(`K - 1` when `remove_root`), both weight arrays have shape `[N, K]`, and
`target_root` has shape `[N, 3]` (`N` entries, each a `Vec3`). -/
theorem claim_C9 (cfg : CodecCfg) (N K : Nat)
    (kpts : List (List (ℚ × ℚ))) (vis : List (List ℚ))
    (target : List (List Vec3)) (tvis : List (List ℚ)) (w h : ℚ)
    (hk : kpts.length = N) (hkf : ∀ f ∈ kpts, f.length = K)
    (hv : vis.length = N) (hvf : ∀ f ∈ vis, f.length = K)
    (ht : target.length = N) (htf : ∀ f ∈ target, f.length = K)
    (htv : tvis.length = N) (htvf : ∀ f ∈ tvis, f.length = K)
    (hK : 0 < K) :
    (encode cfg kpts vis target tvis w h).keypoint_labels.length = N ∧
    (∀ f ∈ (encode cfg kpts vis target tvis w h).keypoint_labels,
      f.length = K ∧ ∀ j ∈ f, j.length = if cfg.concat_vis then 3 else 2) ∧
    (encode cfg kpts vis target tvis w h).lifting_target_label.length = N ∧
    (∀ f ∈ (encode cfg kpts vis target tvis w h).lifting_target_label,
      f.length = if cfg.remove_root then K - 1 else K) ∧
    (encode cfg kpts vis target tvis w h).lifting_target_weights.length = N ∧
    (∀ f ∈ (encode cfg kpts vis target tvis w h).lifting_target_weights,
      f.length = K) ∧
    (encode cfg kpts vis target tvis w h).trajectory_weights.length = N ∧
    (∀ f ∈ (encode cfg kpts vis target tvis w h).trajectory_weights,
      f.length = K) ∧
    (encode cfg kpts vis target tvis w h).target_root.length = N := by
  obtain ⟨B, hB, hBlen, hBf⟩ : ∃ B : List (List (List ℚ)),
      (encode cfg kpts vis target tvis w h).keypoint_labels
        = (if cfg.concat_vis then
            (B.zip vis).map fun fv => (fv.1.zip fv.2).map fun jv => jv.1 ++ [jv.2]
          else B) ∧
      B.length = N ∧ ∀ f ∈ B, f.length = K ∧ ∀ j ∈ f, j.length = 2 := by
    rcases hzc : cfg.zero_center with _ | _
    · refine ⟨kpts.map fun f => f.map fun p => [2 * p.1 / w - 1, 2 * p.2 / h - 1],
        by simp [encode, hzc], by simp [hk], ?_⟩
      intro f hf
      rcases List.mem_map.mp hf with ⟨f0, hf0, rfl⟩
      refine ⟨by simp [hkf f0 hf0], ?_⟩
      intro j hj
      rcases List.mem_map.mp hj with ⟨p, -, rfl⟩
      rfl
    · refine ⟨kpts.map fun f => f.map fun p => [p.1, p.2],
        by simp [encode, hzc], by simp [hk], ?_⟩
      intro f hf
      rcases List.mem_map.mp hf with ⟨f0, hf0, rfl⟩
      refine ⟨by simp [hkf f0 hf0], ?_⟩
      intro j hj
      rcases List.mem_map.mp hj with ⟨p, -, rfl⟩
      rfl
  obtain ⟨L, hL, hLlen, hLf⟩ : ∃ L : List (List Vec3),
      (encode cfg kpts vis target tvis w h).lifting_target_label
        = (if cfg.remove_root then L.map fun f => f.eraseIdx 0 else L) ∧
      L.length = N ∧ ∀ f ∈ L, f.length = K := by
    rcases hzc : cfg.zero_center with _ | _
    · exact ⟨target, by simp [encode, hzc], by simp [ht], htf⟩
    · refine ⟨target.map fun f => f.map fun j => subV j (rootOf f),
        by simp [encode, hzc], by simp [ht], ?_⟩
      intro f hf
      rcases List.mem_map.mp hf with ⟨f0, hf0, rfl⟩
      simp [htf f0 hf0]
  have hweights : (encode cfg kpts vis target tvis w h).lifting_target_weights
      = tvis := rfl
  have htraj : (encode cfg kpts vis target tvis w h).trajectory_weights
      = tvis := rfl
  have hroot : (encode cfg kpts vis target tvis w h).target_root
      = target.map rootOf := rfl
  refine ⟨?_, ?_, ?_, ?_, by rw [hweights]; exact htv, ?_,
    by rw [htraj]; exact htv, ?_, ?_⟩
  · rw [hB]
    rcases hcv : cfg.concat_vis with _ | _
    · simpa using hBlen
    · simp [List.length_zip, hBlen, hv]
  · rw [hB]
    rcases hcv : cfg.concat_vis with _ | _
    · simpa using hBf
    · simp only [if_true]
      intro f hf
      rcases List.mem_map.mp hf with ⟨fv, hfv, rfl⟩
      have hmem := List.of_mem_zip hfv
      have h1 : fv.1.length = K := (hBf fv.1 hmem.1).1
      have h2 : fv.2.length = K := hvf fv.2 hmem.2
      refine ⟨by simp [List.length_zip, h1, h2], ?_⟩
      intro j hj
      rcases List.mem_map.mp hj with ⟨jv, hjv, rfl⟩
      have hj1 : jv.1.length = 2 := (hBf fv.1 hmem.1).2 jv.1 (List.of_mem_zip hjv).1
      simp [hj1]
  · rw [hL]
    rcases hrr : cfg.remove_root with _ | _
    · simpa using hLlen
    · simp [hLlen]
  · rw [hL]
    rcases hrr : cfg.remove_root with _ | _
    · simpa using hLf
    · simp only [if_true]
      intro f hf
      rcases List.mem_map.mp hf with ⟨f0, hf0, rfl⟩
      rw [List.length_eraseIdx, hLf f0 hf0, if_pos (by omega)]
  · rw [hweights]
    exact htvf
  · rw [htraj]
    exact htvf
  · rw [hroot]
    simp [ht]

/-- Witness for C9 at a one-frame, two-joint input with default settings. -/
theorem claim_C9_witness :
    (encode {} [[((1 : ℚ), (2 : ℚ)), ((3 : ℚ), (4 : ℚ))]] [[(1 : ℚ), (0 : ℚ)]]
        [[((1 : ℚ), (2 : ℚ), (3 : ℚ)), ((4 : ℚ), (5 : ℚ), (6 : ℚ))]]
        [[(1 : ℚ), (1 : ℚ)]] 10 10).keypoint_labels.length = 1 ∧
    (∀ f ∈ (encode {} [[((1 : ℚ), (2 : ℚ)), ((3 : ℚ), (4 : ℚ))]]
        [[(1 : ℚ), (0 : ℚ)]]
        [[((1 : ℚ), (2 : ℚ), (3 : ℚ)), ((4 : ℚ), (5 : ℚ), (6 : ℚ))]]
        [[(1 : ℚ), (1 : ℚ)]] 10 10).keypoint_labels,
      f.length = 2 ∧ ∀ j ∈ f, j.length = if ({} : CodecCfg).concat_vis then 3 else 2) ∧
    (encode {} [[((1 : ℚ), (2 : ℚ)), ((3 : ℚ), (4 : ℚ))]] [[(1 : ℚ), (0 : ℚ)]]
        [[((1 : ℚ), (2 : ℚ), (3 : ℚ)), ((4 : ℚ), (5 : ℚ), (6 : ℚ))]]
        [[(1 : ℚ), (1 : ℚ)]] 10 10).lifting_target_label.length = 1 ∧
    (∀ f ∈ (encode {} [[((1 : ℚ), (2 : ℚ)), ((3 : ℚ), (4 : ℚ))]]
        [[(1 : ℚ), (0 : ℚ)]]
        [[((1 : ℚ), (2 : ℚ), (3 : ℚ)), ((4 : ℚ), (5 : ℚ), (6 : ℚ))]]
        [[(1 : ℚ), (1 : ℚ)]] 10 10).lifting_target_label,
      f.length = if ({} : CodecCfg).remove_root then 2 - 1 else 2) ∧
    (encode {} [[((1 : ℚ), (2 : ℚ)), ((3 : ℚ), (4 : ℚ))]] [[(1 : ℚ), (0 : ℚ)]]
        [[((1 : ℚ), (2 : ℚ), (3 : ℚ)), ((4 : ℚ), (5 : ℚ), (6 : ℚ))]]
        [[(1 : ℚ), (1 : ℚ)]] 10 10).lifting_target_weights.length = 1 ∧
    (∀ f ∈ (encode {} [[((1 : ℚ), (2 : ℚ)), ((3 : ℚ), (4 : ℚ))]]
        [[(1 : ℚ), (0 : ℚ)]]
        [[((1 : ℚ), (2 : ℚ), (3 : ℚ)), ((4 : ℚ), (5 : ℚ), (6 : ℚ))]]
        [[(1 : ℚ), (1 : ℚ)]] 10 10).lifting_target_weights, f.length = 2) ∧
    (encode {} [[((1 : ℚ), (2 : ℚ)), ((3 : ℚ), (4 : ℚ))]] [[(1 : ℚ), (0 : ℚ)]]
        [[((1 : ℚ), (2 : ℚ), (3 : ℚ)), ((4 : ℚ), (5 : ℚ), (6 : ℚ))]]
        [[(1 : ℚ), (1 : ℚ)]] 10 10).trajectory_weights.length = 1 ∧
    (∀ f ∈ (encode {} [[((1 : ℚ), (2 : ℚ)), ((3 : ℚ), (4 : ℚ))]]
        [[(1 : ℚ), (0 : ℚ)]]
        [[((1 : ℚ), (2 : ℚ), (3 : ℚ)), ((4 : ℚ), (5 : ℚ), (6 : ℚ))]]
        [[(1 : ℚ), (1 : ℚ)]] 10 10).trajectory_weights, f.length = 2) ∧
    (encode {} [[((1 : ℚ), (2 : ℚ)), ((3 : ℚ), (4 : ℚ))]] [[(1 : ℚ), (0 : ℚ)]]
        [[((1 : ℚ), (2 : ℚ), (3 : ℚ)), ((4 : ℚ), (5 : ℚ), (6 : ℚ))]]
        [[(1 : ℚ), (1 : ℚ)]] 10 10).target_root.length = 1 :=
  claim_C9 {} 1 2 [[((1 : ℚ), (2 : ℚ)), ((3 : ℚ), (4 : ℚ))]]
    [[(1 : ℚ), (0 : ℚ)]]
    [[((1 : ℚ), (2 : ℚ), (3 : ℚ)), ((4 : ℚ), (5 : ℚ), (6 : ℚ))]]
    [[(1 : ℚ), (1 : ℚ)]] 10 10
    (by simp) (by simp) (by simp) (by simp) (by simp) (by simp)
    (by simp) (by simp) (by norm_num)

/-! ### Witnesses for C3 and C4 -/

/-- Witness for C3: the default configuration over a ten-frame video yields
ten singleton sequences. -/
theorem claim_C3_witness :
    (seqsOfVideo {} (List.range 10)).length
        = (List.range 10).length + 1
          - ((({} : SeqCfg).seq_len - 1) * ({} : SeqCfg).seq_step + 1) ∧
      (({} : SeqCfg).seq_len = 1 → ({} : SeqCfg).seq_step = 1 →
        seqsOfVideo {} (List.range 10) = (List.range 10).map fun x => [x]) :=
  claim_C3 {} (List.range 10) (by decide) (by decide)

def cfgC4W : SeqCfg := { multiple_target := 2 }

/-- Witness for C4: `multiple_target = 2` over a five-frame video yields two
sequences and drops the trailing frame. -/
theorem claim_C4_witness :
    (seqsOfVideo cfgC4W (List.range 5)).length
        = (List.range 5).length / cfgC4W.multiple_target ∧
    ∀ j < (List.range 5).length / cfgC4W.multiple_target,
      (seqsOfVideo cfgC4W (List.range 5))[j]? =
        some (everyNth cfgC4W.seq_step (((List.range 5).drop
          (j * cfgC4W.multiple_target)).take cfgC4W.multiple_target)) ∧
      (everyNth cfgC4W.seq_step (((List.range 5).drop
          (j * cfgC4W.multiple_target)).take cfgC4W.multiple_target)).length
        = (cfgC4W.multiple_target + cfgC4W.seq_step - 1) / cfgC4W.seq_step :=
  claim_C4 cfgC4W (List.range 5) (by decide) (by decide)

end H36M
